import Mathlib

/-!
# RBAC CEL evaluation engine and policy compiler

A shallow embedding of `security/rbac/engine/engine.go` and
`security/rbac/compiler/compiler.go`, followed by theorems about the
decision algorithm of `CelEvaluationEngine.Evaluate`, the validation done by
`NewCelEvaluationEngine`, and the policy set assembled by
`compileYamltoRbac`.

Modelling conventions:

* A Go `map[string]V` is a list of entries with pairwise distinct keys
  (`GoMap`).  A `range` statement over a map visits the entries in an order
  the language leaves unspecified; the functions that range over a map take
  the visiting order as an argument, constrained to be a permutation of the
  entries (`RangeOk`).
* `pb.RBAC_Action` is an `int32` enum; it is an integer here, with
  `RBAC_ALLOW = 0` and `RBAC_DENY = 1`.
* The CEL library is external.  The engine is parameterised by the two
  functions that the source leaves as stubs (`exprToProgram`,
  `matchesCondition`); the stubs themselves are embedded as well.
* A process-fatal exit (`log.Fatalf`, `glog.Exit`) is the result `none`.
* A pointer `*pb.Policy` is an `Option`, with `none` for nil; a nil pointer
  dereference panics, and the panic is the result `none`.
-/

namespace Rbac

/-! ## Go maps -/

/-- A Go `map[string]V`: finitely many entries, no key twice. -/
structure GoMap (V : Type) where
  entries : List (String × V)
  nodup : (entries.map Prod.fst).Nodup

/-- The assignment `m[k] = v` on the entry list: overwrite the entry of key
`k` when there is one, add a new entry otherwise. -/
def setEntry {V : Type} (k : String) (v : V) : List (String × V) → List (String × V)
  | [] => [(k, v)]
  | (k', v') :: rest =>
    if k' = k then (k, v) :: rest else (k', v') :: setEntry k v rest

/-- The empty map, `make(map[string]V)`. -/
def GoMap.empty {V : Type} : GoMap V := ⟨[], List.nodup_nil⟩

/-- The assignment `m[k] = v`.  The keys stay pairwise distinct: the keys of
the new entry list are the old keys, with `k` added at the end when it was
absent. -/
def GoMap.set {V : Type} (m : GoMap V) (k : String) (v : V) : GoMap V :=
  ⟨setEntry k v m.entries, by
    have hkeys : ∀ l : List (String × V), (setEntry k v l).map Prod.fst =
        if k ∈ l.map Prod.fst then l.map Prod.fst else l.map Prod.fst ++ [k] := by
      intro l
      induction l with
      | nil => simp [setEntry]
      | cons hd tl ih =>
        obtain ⟨k₀, v₀⟩ := hd
        by_cases h : k₀ = k
        · subst h
          simp [setEntry]
        · have h₀ : ¬ k = k₀ := fun e => h e.symm
          simp only [setEntry, h, if_false, List.map_cons, ih, List.mem_cons, h₀, false_or]
          split <;> simp
    rw [hkeys]
    split
    · exact m.nodup
    · rename_i hk
      refine List.Nodup.append m.nodup (List.nodup_singleton k) ?_
      intro a ha hb
      rw [List.mem_singleton] at hb
      subst hb
      exact hk ha⟩

/-- The index expression `m[k]` on a map of integers: the zero value when the
key is absent. -/
def goIndex (m : List (String × Int)) (k : String) : Int :=
  (m.lookup k).getD 0

/-! ## Envoy RBAC protos (`envoy/config/rbac/v2`) -/

/-- The enum `pb.RBAC_Action`, an `int32`. -/
abbrev RBAC_Action := Int

/-- The enum value `pb.RBAC_ALLOW`. -/
def RBAC_ALLOW : RBAC_Action := 0

/-- The enum value `pb.RBAC_DENY`. -/
def RBAC_DENY : RBAC_Action := 1

/-- The generated table `pb.RBAC_Action_value`. -/
def RBAC_Action_value : List (String × Int) := [("ALLOW", 0), ("DENY", 1)]

/-- The proto `pb.Policy`, of which the code uses the field `Condition`. -/
structure Policy (Expr : Type) where
  Condition : Expr

/-- The proto `pb.RBAC`.  The values of the map `Policies` are pointers
`*pb.Policy`; `none` is the nil pointer. -/
structure RBAC (Expr : Type) where
  Action : RBAC_Action
  Policies : GoMap (Option (Policy Expr))

/-! ## engine.go -/

/-- The type `peer.Peer`. -/
structure Peer where
  Addr : String
  AuthInfo : Option String

/-- AuthorizationArgs is the input of CEL engine. -/
structure AuthorizationArgs where
  md : List (String × List String)
  peerInfo : Option Peer

/-- Decision is the enum of authorization decisions. -/
inductive Decision where
  | DecisionAllow
  | DecisionDeny
  | DecisionUnknown
  deriving DecidableEq, Repr

open Decision

/-- AuthorizationDecision is the output of CEL engine. -/
structure AuthorizationDecision where
  decision : Decision
  policyNames : List String
  deriving DecidableEq, Repr

/-- The result `(bool, error)` of `matchesCondition`; the error is `none` for
Go's `nil`. -/
abbrev MatchResult := Bool × Option String

/-- The stub `exprToProgram` of engine.go: it returns the nil pointer. -/
def exprToProgram {Expr Prog : Type} (_condition : Expr) : Option Prog := none

/-- The stub `matchesCondition` of engine.go: it returns `false, nil`. -/
def matchesCondition {Prog : Type} (_condition : Option Prog)
    (_args : AuthorizationArgs) : MatchResult := (false, none)

/-- rbacEngine is the struct for an engine created from one RBAC proto. -/
structure rbacEngine (Prog : Type) where
  action : RBAC_Action
  conditions : GoMap Prog

/-- The loop of `newRbacEngine`, over the policies in visiting order.  The
field access `policy.Condition` through a nil pointer panics: the result is
`none`. -/
def newRbacEngine.loop {Expr Prog : Type} (toProgram : Expr → Prog) :
    List (String × Option (Policy Expr)) → GoMap Prog → Option (GoMap Prog)
  | [], conditions => some conditions
  | (policyName, policy) :: rest, conditions =>
    match policy with
    | none => none
    | some p =>
      newRbacEngine.loop toProgram rest (conditions.set policyName (toProgram p.Condition))

/-- Creates a new rbacEngine from an RBAC, or panics (`none`) on a nil policy.
The policies are visited in the order of the entry list; whether the function
panics, and the map that results, are the same for every visiting order. -/
def newRbacEngine {Expr Prog : Type} (toProgram : Expr → Prog) (rbac : RBAC Expr) :
    Option (rbacEngine Prog) :=
  match newRbacEngine.loop toProgram rbac.Policies.entries GoMap.empty with
  | none => none
  | some conditions => some ⟨rbac.Action, conditions⟩

/-- The loop of `rbacEngine.matches` over the conditions in visiting order,
carrying `unknownPolicies`.  The first component of the result is the named
result `policyName`. -/
def rbacEngine.matchesLoop {Prog : Type} (matchCond : Prog → AuthorizationArgs → MatchResult)
    (args : AuthorizationArgs) : List (String × Prog) → List String → String × List String
  | [], unknownPolicies => ("", unknownPolicies)
  | (policyName, condition) :: rest, unknownPolicies =>
    let r := matchCond condition args
    let unknownPolicies' :=
      if r.2 ≠ none then unknownPolicies ++ [policyName] else unknownPolicies
    if r.1 then (policyName, unknownPolicies')
    else rbacEngine.matchesLoop matchCond args rest unknownPolicies'

/-- Returns whether a set of authorization arguments match an rbacEngine's
conditions; `order` is the order in which `range engine.conditions` visits the
conditions. -/
def rbacEngine.matches {Prog : Type} (matchCond : Prog → AuthorizationArgs → MatchResult)
    (order : List (String × Prog)) (args : AuthorizationArgs) : String × List String :=
  rbacEngine.matchesLoop matchCond args order []

/-- CelEvaluationEngine is the struct for CEL engine. -/
structure CelEvaluationEngine (Prog : Type) where
  engines : List (rbacEngine Prog)

/-- The gRPC status error built by `status.Errorf`. -/
structure Status where
  code : Nat
  message : String
  deriving DecidableEq, Repr

/-- The code `codes.InvalidArgument`. -/
def InvalidArgument : Nat := 3

/-- The loop of `NewCelEvaluationEngine` over the RBACs, carrying `engines`;
`none` when `newRbacEngine` panics. -/
def NewCelEvaluationEngine.loop {Expr Prog : Type} (toProgram : Expr → Prog) :
    List (RBAC Expr) → List (rbacEngine Prog) → Option (List (rbacEngine Prog))
  | [], engines => some engines
  | rbac :: rest, engines =>
    match newRbacEngine toProgram rbac with
    | none => none
    | some engine => NewCelEvaluationEngine.loop toProgram rest (engines ++ [engine])

/-- NewCelEvaluationEngine builds a cel evaluation engine from a list of Envoy
RBACs.  The result is `some (.error status)` when the function returns an
error, `some (.ok engine)` when it returns an engine and a nil error, and
`none` when it panics. -/
def NewCelEvaluationEngine {Expr Prog : Type} (toProgram : Expr → Prog)
    (rbacs : List (RBAC Expr)) : Option (Except Status (CelEvaluationEngine Prog)) :=
  if rbacs.length < 1 ∨ rbacs.length > 2 then
    some (.error ⟨InvalidArgument, "must provide 1 or 2 RBACs"⟩)
  else if rbacs.length = 2 ∧
      ((rbacs.get? 0).map (fun r => r.Action) ≠ some RBAC_DENY ∨
       (rbacs.get? 1).map (fun r => r.Action) ≠ some RBAC_ALLOW) then
    some (.error ⟨InvalidArgument,
      "when providing 2 RBACs, must have 1 DENY and 1 ALLOW in that order"⟩)
  else
    match NewCelEvaluationEngine.loop toProgram rbacs [] with
    | none => none
    | some engines => some (.ok ⟨engines⟩)

/-- The order in which each `range engine.conditions` of one run of `Evaluate`
visits the conditions of an engine.  One run ranges once over each engine, and
the engines of a built engine list are pairwise different (a DENY followed by
an ALLOW), so a function of the engine describes every run. -/
abbrev RangeOrder (Prog : Type) := rbacEngine Prog → List (String × Prog)

/-- A visiting order is admissible when it lists the entries of each engine's
conditions map, each entry once. -/
def RangeOk {Prog : Type} (range : RangeOrder Prog) (engines : List (rbacEngine Prog)) : Prop :=
  ∀ e ∈ engines, (range e).Perm e.conditions.entries

/-- The loop of `Evaluate` over the engines, carrying `allUnknownPolicies`:
`Sum.inl` is the early return on a match, `Sum.inr` the list of unknown
policies when the loop runs to its end. -/
def Evaluate.loop {Prog : Type} (matchCond : Prog → AuthorizationArgs → MatchResult)
    (range : RangeOrder Prog) (args : AuthorizationArgs) :
    List (rbacEngine Prog) → List String → AuthorizationDecision ⊕ List String
  | [], allUnknownPolicies => .inr allUnknownPolicies
  | engine :: rest, allUnknownPolicies =>
    let r := rbacEngine.matches matchCond (range engine) args
    if r.1 ≠ "" then
      .inl ⟨if engine.action = RBAC_ALLOW then DecisionAllow else DecisionDeny, [r.1]⟩
    else Evaluate.loop matchCond range args rest (allUnknownPolicies ++ r.2)

/-- Evaluate is the core function that evaluates whether an RPC is
authorized. -/
def Evaluate {Prog : Type} (matchCond : Prog → AuthorizationArgs → MatchResult)
    (range : RangeOrder Prog) (celEngine : CelEvaluationEngine Prog)
    (args : AuthorizationArgs) : AuthorizationDecision :=
  match Evaluate.loop matchCond range args celEngine.engines [] with
  | .inl decision => decision
  | .inr allUnknownPolicies =>
    if allUnknownPolicies.length > 0 then ⟨DecisionUnknown, allUnknownPolicies⟩
    else if celEngine.engines.length = 1 ∧
        (celEngine.engines.head?.map (fun e => e.action)) = some RBAC_DENY then
      ⟨DecisionAllow, []⟩
    else ⟨DecisionDeny, []⟩

/-! ## compiler.go -/

/-- One element of `UserPolicy.Rules`. -/
structure Rule where
  Name : String
  Condition : String
  deriving DecidableEq, Repr

/-- UserPolicy is the user policy. -/
structure UserPolicy where
  Action : String
  Rules : List Rule
  deriving DecidableEq, Repr

/-- The library calls of the compiler: file reading, YAML decoding, and the
CEL environment of `createUserPolicyCelEnv` with its parser and checker.  A
call that reports an error gives `none`. -/
structure Library (Ast Expr : Type) where
  /-- The call `ioutil.ReadFile`. -/
  readFile : String → Option String
  /-- The call `yaml.Unmarshal` into a zero `UserPolicy`. -/
  yamlUnmarshal : String → Option UserPolicy
  /-- The call `env.Parse`. -/
  envParse : String → Option Ast
  /-- The call `env.Check`. -/
  envCheck : Ast → Option Ast
  /-- The test `proto.Equal(checked.ResultType(), decls.Bool)`. -/
  resultTypeIsBool : Ast → Bool
  /-- The call `checked.Expr()`. -/
  astExpr : Ast → Expr

section CompilerDefs

variable {Ast Expr : Type}

/-- The function `readYaml`: the file contents, or a fatal exit. -/
def readYaml (lib : Library Ast Expr) (filePath : String) : Option String :=
  lib.readFile filePath

/-- The function `parseYaml`: the decoded policy, or a fatal exit. -/
def parseYaml (lib : Library Ast Expr) (file : String) : Option UserPolicy :=
  lib.yamlUnmarshal file

/-- The function `compileCel`: the checked AST of a condition, or an exit on a
syntax error, on a type error, or on a result type other than bool. -/
def compileCel (lib : Library Ast Expr) (condition : String) : Option Ast :=
  match lib.envParse condition with
  | none => none
  | some ast =>
    match lib.envCheck ast with
    | none => none
    | some checked => if !lib.resultTypeIsBool checked then none else some checked

/-- The loop of `compileYamltoRbac` over the rules, carrying `rbac.Policies`;
the value stored under the rule's name is the pointer `&policy`. -/
def compileYamltoRbac.loop (lib : Library Ast Expr) :
    List Rule → GoMap (Option (Policy Expr)) → Option (GoMap (Option (Policy Expr)))
  | [], policies => some policies
  | rule :: rest, policies =>
    match compileCel lib rule.Condition with
    | none => none
    | some checked =>
      compileYamltoRbac.loop lib rest (policies.set rule.Name (some ⟨lib.astExpr checked⟩))

/-- The function `compileYamltoRbac`: the RBAC compiled from the policy file,
or `none` when the process exits. -/
def compileYamltoRbac (lib : Library Ast Expr) (filename : String) : Option (RBAC Expr) :=
  match readYaml lib filename with
  | none => none
  | some yamlFile =>
    match parseYaml lib yamlFile with
    | none => none
    | some userPolicy =>
      match compileYamltoRbac.loop lib userPolicy.Rules GoMap.empty with
      | none => none
      | some policies => some ⟨goIndex RBAC_Action_value userPolicy.Action, policies⟩

end CompilerDefs

/-! ## Outcomes of condition evaluation and the reference decision -/

section SpecDefs

variable {Prog : Type}

/-- The condition of an entry evaluates to true: `matchesCondition` reports a
match. -/
def condTrue (matchCond : Prog → AuthorizationArgs → MatchResult)
    (args : AuthorizationArgs) (kc : String × Prog) : Bool :=
  (matchCond kc.2 args).1

/-- The condition of an entry is indeterminate: `matchesCondition` returns a
non-nil error. -/
def condUnknown (matchCond : Prog → AuthorizationArgs → MatchResult)
    (args : AuthorizationArgs) (kc : String × Prog) : Bool :=
  (matchCond kc.2 args).2.isSome

/-- The names of the indeterminate conditions of a list of entries, in the
order of the list. -/
def unknownNames (matchCond : Prog → AuthorizationArgs → MatchResult)
    (args : AuthorizationArgs) (l : List (String × Prog)) : List String :=
  (l.filter (condUnknown matchCond args)).map Prod.fst

/-- Some condition of the engine evaluates to true. -/
def hasTrue (matchCond : Prog → AuthorizationArgs → MatchResult)
    (args : AuthorizationArgs) (e : rbacEngine Prog) : Bool :=
  e.conditions.entries.any (condTrue matchCond args)

/-- Some condition of the engine is indeterminate. -/
def hasUnknown (matchCond : Prog → AuthorizationArgs → MatchResult)
    (args : AuthorizationArgs) (e : rbacEngine Prog) : Bool :=
  e.conditions.entries.any (condUnknown matchCond args)

/-- The decision of a matched engine. -/
def actionDecision (e : rbacEngine Prog) : Decision :=
  if e.action = RBAC_ALLOW then DecisionAllow else DecisionDeny

/-- The names of the indeterminate conditions of all engines: engine after
engine, each engine's in visiting order. -/
def allUnknownNames (matchCond : Prog → AuthorizationArgs → MatchResult)
    (args : AuthorizationArgs) (range : RangeOrder Prog)
    (engines : List (rbacEngine Prog)) : List String :=
  engines.flatMap (fun e => unknownNames matchCond args (range e))

/-- The order-free reference for the decision kind: the action of the first
policy set, in engine order, that has a condition evaluating to true;
otherwise unknown when some condition is indeterminate; otherwise the
default, allow for a single DENY set and deny in every other case. -/
def referenceDecision (matchCond : Prog → AuthorizationArgs → MatchResult)
    (args : AuthorizationArgs) (engines : List (rbacEngine Prog)) : Decision :=
  match engines.find? (hasTrue matchCond args) with
  | some e => if e.action = RBAC_ALLOW then DecisionAllow else DecisionDeny
  | none =>
    if engines.any (hasUnknown matchCond args) then DecisionUnknown
    else
      match engines with
      | [e] => if e.action = RBAC_DENY then DecisionAllow else DecisionDeny
      | _ => DecisionDeny

/-- The default decision of `Evaluate`, taken when no engine matched and no
condition was indeterminate. -/
def defaultDecision (engines : List (rbacEngine Prog)) : AuthorizationDecision :=
  if engines.length = 1 ∧ (engines.head?.map (fun e => e.action)) = some RBAC_DENY then
    ⟨DecisionAllow, []⟩
  else ⟨DecisionDeny, []⟩

end SpecDefs

/-! ## Concrete policy sets, documents and calls -/

/-- A condition evaluator for examples, on programs given as text: the
program "true" matches, the program "unknown" fails with an error, every other
program evaluates to false. -/
def textCond : String → AuthorizationArgs → MatchResult :=
  fun p _ =>
    (p == "true", if p == "unknown" then some "missing attribute" else none)

/-- The visiting order that follows the entry list. -/
def entriesOrder {Prog : Type} : RangeOrder Prog := fun e => e.conditions.entries

/-- The visiting order that follows the entry list backwards. -/
def reverseOrder {Prog : Type} : RangeOrder Prog := fun e => e.conditions.entries.reverse

/-- A call without metadata and without peer information. -/
def noArgs : AuthorizationArgs := ⟨[], none⟩

/-- A call from the peer at port 1. -/
def argsPort1 : AuthorizationArgs := ⟨[], some ⟨"10.0.0.1:1", none⟩⟩

/-- A DENY policy set whose one policy has the empty name. -/
def denyEmptyName : RBAC String := ⟨RBAC_DENY, ⟨[("", some ⟨"true"⟩)], by decide⟩⟩

/-- An ALLOW policy set with one policy, named "a". -/
def allowA : RBAC String := ⟨RBAC_ALLOW, ⟨[("a", some ⟨"true"⟩)], by decide⟩⟩

/-- An ALLOW policy set whose one policy has the empty name. -/
def allowEmptyName : RBAC String := ⟨RBAC_ALLOW, ⟨[("", some ⟨"true"⟩)], by decide⟩⟩

/-- An ALLOW policy set with two policies that both evaluate to true. -/
def allowTwoTrue : RBAC String :=
  ⟨RBAC_ALLOW, ⟨[("a", some ⟨"true"⟩), ("b", some ⟨"true"⟩)], by decide⟩⟩

/-- A library in which the policy file decodes to `doc` and every condition
parses and checks as a bool expression; the AST of a condition is its text. -/
def libraryFor (doc : UserPolicy) : Library String String where
  readFile := fun _ => some ""
  yamlUnmarshal := fun _ => some doc
  envParse := fun s => some s
  envCheck := fun ast => some ast
  resultTypeIsBool := fun _ => true
  astExpr := fun ast => ast

/-- A policy document whose action is misspelt. -/
def docDenny : UserPolicy := ⟨"DENNY", [⟨"block", "source.port == 1"⟩]⟩

/-- The policy document of the round trip: one rule "r1". -/
def docR1 : UserPolicy := ⟨"ALLOW", [⟨"r1", "source.port == 1"⟩]⟩

/-- A policy document with two rules of the same name. -/
def docDup : UserPolicy :=
  ⟨"DENY", [⟨"r", "source.port == 1"⟩, ⟨"r", "source.port == 2"⟩]⟩

/-- A DENY policy set with one policy, whose condition evaluates to false. -/
def denyFalse : RBAC String := ⟨RBAC_DENY, ⟨[("d", some ⟨"false"⟩)], by decide⟩⟩

/-- A DENY policy set with an indeterminate and a false condition. -/
def denyUnknown : RBAC String :=
  ⟨RBAC_DENY, ⟨[("d1", some ⟨"unknown"⟩), ("d2", some ⟨"false"⟩)], by decide⟩⟩

/-- An ALLOW policy set with one policy, whose condition is indeterminate. -/
def allowUnknown : RBAC String := ⟨RBAC_ALLOW, ⟨[("a1", some ⟨"unknown"⟩)], by decide⟩⟩

/-- The RBAC that `compileYamltoRbac` returns for the document `docR1`. -/
def rbacR1 : RBAC String := ⟨RBAC_ALLOW, ⟨[("r1", some ⟨"source.port == 1"⟩)], by decide⟩⟩

/-- An ALLOW policy set whose one policy is the nil pointer. -/
def allowNilPolicy : RBAC String := ⟨RBAC_ALLOW, ⟨[("p", none)], by decide⟩⟩

/-- The engine built from `denyEmptyName`. -/
def denyEmptyNameEngine : rbacEngine String := ⟨RBAC_DENY, ⟨[("", "true")], by decide⟩⟩

/-- The engine built from `allowA`. -/
def allowAEngine : rbacEngine String := ⟨RBAC_ALLOW, ⟨[("a", "true")], by decide⟩⟩

/-- The engine built from `allowEmptyName`. -/
def allowEmptyNameEngine : rbacEngine String := ⟨RBAC_ALLOW, ⟨[("", "true")], by decide⟩⟩

/-- The engine built from `allowTwoTrue`. -/
def allowTwoTrueEngine : rbacEngine String :=
  ⟨RBAC_ALLOW, ⟨[("a", "true"), ("b", "true")], by decide⟩⟩

/-- The engine built from `denyFalse`. -/
def denyFalseEngine : rbacEngine String := ⟨RBAC_DENY, ⟨[("d", "false")], by decide⟩⟩

/-- The engine built from `denyUnknown`. -/
def denyUnknownEngine : rbacEngine String :=
  ⟨RBAC_DENY, ⟨[("d1", "unknown"), ("d2", "false")], by decide⟩⟩

/-- The engine built from `allowUnknown`. -/
def allowUnknownEngine : rbacEngine String :=
  ⟨RBAC_ALLOW, ⟨[("a1", "unknown")], by decide⟩⟩

/-- The engine built from `rbacR1` with the function `exprToProgram` of
engine.go: the program of "r1" is the nil pointer. -/
def engineR1 : rbacEngine (Option Unit) := ⟨RBAC_ALLOW, ⟨[("r1", none)], by decide⟩⟩

/-! ## Lemmas -/

section Lemmas

variable {Ast Expr Prog : Type}

theorem setEntry_of_not_mem {V : Type} (k : String) (v : V) (l : List (String × V))
    (h : k ∉ l.map Prod.fst) : setEntry k v l = l ++ [(k, v)] := by
  induction l with
  | nil => rfl
  | cons hd tl ih =>
    obtain ⟨k', v'⟩ := hd
    simp only [List.map_cons, List.mem_cons, not_or] at h
    have h1 : ¬ k' = k := fun e => h.1 e.symm
    simp [setEntry, h1, ih h.2]

theorem mem_keys_setEntry {V : Type} (k : String) (v : V) (l : List (String × V))
    (k' : String) :
    k' ∈ (setEntry k v l).map Prod.fst ↔ k' = k ∨ k' ∈ l.map Prod.fst := by
  induction l with
  | nil => simp [setEntry]
  | cons hd tl ih =>
    obtain ⟨k₀, v₀⟩ := hd
    by_cases h : k₀ = k
    · subst h
      simp [setEntry]
    · simp only [setEntry, h, if_false, List.map_cons, List.mem_cons, ih]
      tauto

theorem mem_setEntry_self {V : Type} (k : String) (v : V) (l : List (String × V)) :
    (k, v) ∈ setEntry k v l := by
  induction l with
  | nil => simp [setEntry]
  | cons hd tl ih =>
    obtain ⟨k₀, v₀⟩ := hd
    by_cases h : k₀ = k
    · simp [setEntry, h]
    · simp only [setEntry, h, if_false, List.mem_cons]
      exact Or.inr ih

theorem mem_setEntry_of_ne {V : Type} (k : String) (v : V) (l : List (String × V))
    (k' : String) (v' : V) (hne : k' ≠ k) (hmem : (k', v') ∈ l) :
    (k', v') ∈ setEntry k v l := by
  induction l with
  | nil => simp at hmem
  | cons hd tl ih =>
    obtain ⟨k₀, v₀⟩ := hd
    by_cases h : k₀ = k
    · simp only [setEntry, h, if_true, List.mem_cons]
      rcases List.mem_cons.1 hmem with e | e
      · simp only [Prod.mk.injEq] at e
        exact absurd (e.1.trans h) hne
      · exact Or.inr e
    · simp only [setEntry, h, if_false, List.mem_cons]
      rcases List.mem_cons.1 hmem with e | e
      · exact Or.inl e
      · exact Or.inr (ih e)

theorem newRbacEngine_loop_eq_none_iff (toProgram : Expr → Prog)
    (l : List (String × Option (Policy Expr))) (m : GoMap Prog) :
    newRbacEngine.loop toProgram l m = none ↔ ∃ kp ∈ l, kp.2 = none := by
  induction l generalizing m with
  | nil => simp [newRbacEngine.loop]
  | cons hd tl ih =>
    obtain ⟨k, p⟩ := hd
    cases p with
    | none => simp [newRbacEngine.loop]
    | some p => simp [newRbacEngine.loop, ih]

/-- The function `newRbacEngine` panics exactly on an RBAC that has a nil
policy. -/
theorem newRbacEngine_eq_none_iff (toProgram : Expr → Prog) (rbac : RBAC Expr) :
    (newRbacEngine toProgram rbac : Option (rbacEngine Prog)) = none ↔
      ∃ kp ∈ rbac.Policies.entries, kp.2 = none := by
  rw [← newRbacEngine_loop_eq_none_iff toProgram rbac.Policies.entries GoMap.empty]
  unfold newRbacEngine
  cases newRbacEngine.loop toProgram rbac.Policies.entries GoMap.empty <;> simp

/-- The engine of an RBAC has the action of the RBAC. -/
theorem newRbacEngine_action (toProgram : Expr → Prog) (rbac : RBAC Expr)
    (e : rbacEngine Prog) (h : newRbacEngine toProgram rbac = some e) :
    e.action = rbac.Action := by
  unfold newRbacEngine at h
  cases hl : newRbacEngine.loop toProgram rbac.Policies.entries GoMap.empty with
  | none => simp [hl] at h
  | some conditions =>
    simp only [hl, Option.some.injEq] at h
    rw [← h]

theorem newCelEvaluationEngine_loop_eq_none_iff (toProgram : Expr → Prog)
    (rbacs : List (RBAC Expr)) (acc : List (rbacEngine Prog)) :
    NewCelEvaluationEngine.loop toProgram rbacs acc = none ↔
      ∃ r ∈ rbacs, ∃ kp ∈ r.Policies.entries, kp.2 = none := by
  induction rbacs generalizing acc with
  | nil => simp [NewCelEvaluationEngine.loop]
  | cons r rest ih =>
    rw [NewCelEvaluationEngine.loop]
    cases hr : (newRbacEngine toProgram r : Option (rbacEngine Prog)) with
    | none =>
      have := (newRbacEngine_eq_none_iff toProgram r).1 hr
      simp only [List.mem_cons, exists_eq_or_imp, true_iff]
      exact Or.inl this
    | some e =>
      have hnot : ¬ ∃ kp ∈ r.Policies.entries, kp.2 = none := by
        intro hex
        rw [(newRbacEngine_eq_none_iff toProgram r).2 hex] at hr
        cases hr
      simp only [ih, List.mem_cons, exists_eq_or_imp, hnot, false_or]

theorem newCelEvaluationEngine_loop_some (toProgram : Expr → Prog)
    (rbacs : List (RBAC Expr)) (acc engines : List (rbacEngine Prog))
    (h : NewCelEvaluationEngine.loop toProgram rbacs acc = some engines) :
    ∃ built, engines = acc ++ built ∧
      List.Forall₂ (fun r e => newRbacEngine toProgram r = some e) rbacs built := by
  induction rbacs generalizing acc with
  | nil =>
    simp only [NewCelEvaluationEngine.loop, Option.some.injEq] at h
    exact ⟨[], by simp [h], List.Forall₂.nil⟩
  | cons r rest ih =>
    rw [NewCelEvaluationEngine.loop] at h
    cases hr : (newRbacEngine toProgram r : Option (rbacEngine Prog)) with
    | none => simp [hr] at h
    | some e =>
      simp only [hr] at h
      obtain ⟨built, hb, hall⟩ := ih _ h
      exact ⟨e :: built, by simp [hb], List.Forall₂.cons hr hall⟩

theorem matchesLoop_of_none_true (matchCond : Prog → AuthorizationArgs → MatchResult)
    (args : AuthorizationArgs) (l : List (String × Prog)) (unk : List String)
    (h : ∀ kc ∈ l, condTrue matchCond args kc = false) :
    rbacEngine.matchesLoop matchCond args l unk = ("", unk ++ unknownNames matchCond args l) := by
  induction l generalizing unk with
  | nil => simp [rbacEngine.matchesLoop, unknownNames]
  | cons hd tl ih =>
    obtain ⟨k, c⟩ := hd
    have h1 : (matchCond c args).1 = false := h (k, c) (by simp)
    have h2 : ∀ kc ∈ tl, condTrue matchCond args kc = false :=
      fun kc hkc => h kc (by simp [hkc])
    rw [rbacEngine.matchesLoop]
    simp only [h1, Bool.false_eq_true, if_false]
    rw [ih _ h2]
    cases herr : (matchCond c args).2 with
    | none => simp [unknownNames, condUnknown, herr]
    | some err => simp [unknownNames, condUnknown, herr]

theorem matchesLoop_of_some_true (matchCond : Prog → AuthorizationArgs → MatchResult)
    (args : AuthorizationArgs) (l : List (String × Prog)) (unk : List String)
    (h : ∃ kc ∈ l, condTrue matchCond args kc = true) :
    ∃ kc ∈ l, condTrue matchCond args kc = true ∧
      (rbacEngine.matchesLoop matchCond args l unk).1 = kc.1 := by
  induction l generalizing unk with
  | nil => simp at h
  | cons hd tl ih =>
    obtain ⟨k, c⟩ := hd
    rw [rbacEngine.matchesLoop]
    by_cases h1 : (matchCond c args).1 = true
    · exact ⟨(k, c), by simp, h1, by simp [h1]⟩
    · have h2 : ∃ kc ∈ tl, condTrue matchCond args kc = true := by
        obtain ⟨kc, hkc, ht⟩ := h
        rcases List.mem_cons.1 hkc with e | e
        · subst e
          exact absurd ht h1
        · exact ⟨kc, e, ht⟩
      simp only [h1, if_false]
      obtain ⟨kc, hkc, ht, hn⟩ := ih _ h2
      exact ⟨kc, List.mem_cons_of_mem _ hkc, ht, hn⟩

theorem hasTrue_eq_false_iff (matchCond : Prog → AuthorizationArgs → MatchResult)
    (args : AuthorizationArgs) (e : rbacEngine Prog) :
    hasTrue matchCond args e = false ↔
      ∀ kc ∈ e.conditions.entries, condTrue matchCond args kc = false := by
  simp [hasTrue]

theorem hasTrue_eq_true_iff (matchCond : Prog → AuthorizationArgs → MatchResult)
    (args : AuthorizationArgs) (e : rbacEngine Prog) :
    hasTrue matchCond args e = true ↔
      ∃ kc ∈ e.conditions.entries, condTrue matchCond args kc = true := by
  simp [hasTrue]

theorem unknownNames_perm (matchCond : Prog → AuthorizationArgs → MatchResult)
    (args : AuthorizationArgs) {l₁ l₂ : List (String × Prog)} (h : l₁.Perm l₂) :
    (unknownNames matchCond args l₁).Perm (unknownNames matchCond args l₂) :=
  (h.filter _).map _

theorem unknownNames_nodup (matchCond : Prog → AuthorizationArgs → MatchResult)
    (args : AuthorizationArgs) {l : List (String × Prog)} (h : (l.map Prod.fst).Nodup) :
    (unknownNames matchCond args l).Nodup :=
  ((List.filter_sublist l).map Prod.fst).nodup h

theorem unknownNames_eq_nil_iff (matchCond : Prog → AuthorizationArgs → MatchResult)
    (args : AuthorizationArgs) (l : List (String × Prog)) :
    unknownNames matchCond args l = [] ↔ ∀ kc ∈ l, condUnknown matchCond args kc = false := by
  simp [unknownNames, List.filter_eq_nil_iff]

/-- When no condition of any engine evaluates to true, the loop of `Evaluate`
runs to its end and has collected the indeterminate names. -/
theorem loop_of_none_true (matchCond : Prog → AuthorizationArgs → MatchResult)
    (range : RangeOrder Prog) (args : AuthorizationArgs)
    (engines : List (rbacEngine Prog)) (acc : List String)
    (hr : RangeOk range engines)
    (h : ∀ e ∈ engines, hasTrue matchCond args e = false) :
    Evaluate.loop matchCond range args engines acc =
      .inr (acc ++ allUnknownNames matchCond args range engines) := by
  induction engines generalizing acc with
  | nil => simp [Evaluate.loop, allUnknownNames]
  | cons e rest ih =>
    have he : ∀ kc ∈ range e, condTrue matchCond args kc = false := by
      intro kc hkc
      exact (hasTrue_eq_false_iff matchCond args e).1 (h e (by simp)) kc
        ((hr e (by simp)).mem_iff.1 hkc)
    have hm := matchesLoop_of_none_true matchCond args (range e) [] he
    rw [Evaluate.loop]
    simp only [rbacEngine.matches, hm, ne_eq, not_true_eq_false, if_false]
    rw [ih _ (fun e' he' => hr e' (List.mem_cons_of_mem _ he'))
      (fun e' he' => h e' (List.mem_cons_of_mem _ he'))]
    simp [allUnknownNames]

/-- The loop of `Evaluate` when every policy name is non-empty: it returns at
the first engine that has a condition evaluating to true, with the name of
such a condition, and runs to its end when there is no such engine. -/
theorem loop_spec (matchCond : Prog → AuthorizationArgs → MatchResult)
    (range : RangeOrder Prog) (args : AuthorizationArgs)
    (engines : List (rbacEngine Prog)) (acc : List String)
    (hr : RangeOk range engines)
    (hne : ∀ e ∈ engines, ∀ kc ∈ e.conditions.entries, kc.1 ≠ "") :
    (∃ e kc, engines.find? (hasTrue matchCond args) = some e ∧
        kc ∈ e.conditions.entries ∧ condTrue matchCond args kc = true ∧
        Evaluate.loop matchCond range args engines acc =
          .inl ⟨actionDecision e, [kc.1]⟩) ∨
    (engines.find? (hasTrue matchCond args) = none ∧
        Evaluate.loop matchCond range args engines acc =
          .inr (acc ++ allUnknownNames matchCond args range engines)) := by
  induction engines generalizing acc with
  | nil => right; simp [Evaluate.loop, allUnknownNames]
  | cons e rest ih =>
    have hperm := hr e (by simp)
    by_cases ht : hasTrue matchCond args e = true
    · left
      obtain ⟨kc0, hkc0, ht0⟩ := (hasTrue_eq_true_iff matchCond args e).1 ht
      obtain ⟨kc, hkc, htrue, hname⟩ := matchesLoop_of_some_true matchCond args (range e) []
        ⟨kc0, hperm.mem_iff.2 hkc0, ht0⟩
      have hmem : kc ∈ e.conditions.entries := hperm.mem_iff.1 hkc
      refine ⟨e, kc, by simp [List.find?_cons, ht], hmem, htrue, ?_⟩
      rw [Evaluate.loop]
      simp only [rbacEngine.matches, hname, ne_eq, hne e (by simp) kc hmem,
        not_false_eq_true, if_true, actionDecision]
    · have hf : hasTrue matchCond args e = false := by simpa using ht
      have he : ∀ kc ∈ range e, condTrue matchCond args kc = false := by
        intro kc hkc
        exact (hasTrue_eq_false_iff matchCond args e).1 hf kc (hperm.mem_iff.1 hkc)
      have hm := matchesLoop_of_none_true matchCond args (range e) [] he
      have hstep : ∀ acc', Evaluate.loop matchCond range args (e :: rest) acc' =
          Evaluate.loop matchCond range args rest
            (acc' ++ unknownNames matchCond args (range e)) := by
        intro acc'
        rw [Evaluate.loop]
        simp only [rbacEngine.matches, hm, ne_eq, not_true_eq_false, if_false]
        simp
      rcases ih (acc ++ unknownNames matchCond args (range e))
        (fun e' he' => hr e' (List.mem_cons_of_mem _ he'))
        (fun e' he' => hne e' (List.mem_cons_of_mem _ he')) with
        ⟨e', kc, hfind, hmem, htrue, hloop⟩ | ⟨hfind, hloop⟩
      · left
        exact ⟨e', kc, by simp [List.find?_cons, hf, hfind], hmem, htrue, by
          rw [hstep, hloop]⟩
      · right
        exact ⟨by simp [List.find?_cons, hf, hfind], by
          rw [hstep, hloop]; simp [allUnknownNames]⟩

theorem allUnknownNames_eq_nil_iff (matchCond : Prog → AuthorizationArgs → MatchResult)
    (range : RangeOrder Prog) (args : AuthorizationArgs)
    (engines : List (rbacEngine Prog)) (hr : RangeOk range engines) :
    allUnknownNames matchCond args range engines = [] ↔
      ∀ e ∈ engines, hasUnknown matchCond args e = false := by
  unfold allUnknownNames
  rw [List.flatMap_eq_nil_iff]
  constructor
  · intro h e he
    have h1 := (unknownNames_eq_nil_iff matchCond args (range e)).1 (h e he)
    simp only [hasUnknown, List.any_eq_false]
    intro kc hkc
    simpa using h1 kc ((hr e he).mem_iff.2 hkc)
  · intro h e he
    rw [unknownNames_eq_nil_iff]
    intro kc hkc
    have h1 := h e he
    simp only [hasUnknown, List.any_eq_false] at h1
    simpa using h1 kc ((hr e he).mem_iff.1 hkc)

theorem allUnknownNames_perm (matchCond : Prog → AuthorizationArgs → MatchResult)
    (range₁ range₂ : RangeOrder Prog) (args : AuthorizationArgs)
    (engines : List (rbacEngine Prog)) (h₁ : RangeOk range₁ engines)
    (h₂ : RangeOk range₂ engines) :
    (allUnknownNames matchCond args range₁ engines).Perm
      (allUnknownNames matchCond args range₂ engines) :=
  List.Perm.flatMap_left engines (fun e he =>
    unknownNames_perm matchCond args ((h₁ e he).trans (h₂ e he).symm))

/-- The result of a successful `NewCelEvaluationEngine`: one engine per RBAC,
in the order given. -/
theorem newCelEvaluationEngine_ok (toProgram : Expr → Prog) (rbacs : List (RBAC Expr))
    (ce : CelEvaluationEngine Prog)
    (h : NewCelEvaluationEngine toProgram rbacs = some (.ok ce)) :
    List.Forall₂ (fun r e => newRbacEngine toProgram r = some e) rbacs ce.engines := by
  unfold NewCelEvaluationEngine at h
  split at h
  · cases h
  · split at h
    · cases h
    · cases hl : NewCelEvaluationEngine.loop toProgram rbacs [] with
      | none => simp [hl] at h
      | some engines =>
        simp only [hl, Option.some.injEq, Except.ok.injEq] at h
        obtain ⟨built, hb, hall⟩ := newCelEvaluationEngine_loop_some toProgram rbacs [] engines hl
        rw [← h]
        simpa [hb] using hall

theorem newCelEvaluationEngine_single (toProgram : Expr → Prog) (r : RBAC Expr)
    (ce : CelEvaluationEngine Prog)
    (h : NewCelEvaluationEngine toProgram [r] = some (.ok ce)) :
    ∃ e, ce.engines = [e] ∧ newRbacEngine toProgram r = some e := by
  have hall := newCelEvaluationEngine_ok toProgram [r] ce h
  rw [List.forall₂_cons_left_iff] at hall
  obtain ⟨e, es, he, hrest, heq⟩ := hall
  rw [List.forall₂_nil_left_iff] at hrest
  subst hrest
  exact ⟨e, heq, he⟩

/-- `Evaluate` when no condition of any engine evaluates to true. -/
theorem evaluate_of_none_true (matchCond : Prog → AuthorizationArgs → MatchResult)
    (range : RangeOrder Prog) (args : AuthorizationArgs) (ce : CelEvaluationEngine Prog)
    (hr : RangeOk range ce.engines)
    (h : ∀ e ∈ ce.engines, hasTrue matchCond args e = false) :
    Evaluate matchCond range ce args =
      if allUnknownNames matchCond args range ce.engines = [] then defaultDecision ce.engines
      else ⟨DecisionUnknown, allUnknownNames matchCond args range ce.engines⟩ := by
  unfold Evaluate
  rw [loop_of_none_true matchCond range args ce.engines [] hr h]
  simp only [List.nil_append]
  by_cases hu : allUnknownNames matchCond args range ce.engines = []
  · simp [hu, defaultDecision]
  · have hpos : (allUnknownNames matchCond args range ce.engines).length > 0 :=
      List.length_pos.2 hu
    simp [hu, hpos]

theorem defaultDecision_decision (engines : List (rbacEngine Prog)) :
    (defaultDecision engines).decision =
      match engines with
      | [e] => if e.action = RBAC_DENY then DecisionAllow else DecisionDeny
      | _ => DecisionDeny := by
  match engines with
  | [] => simp [defaultDecision]
  | [e] =>
    by_cases h : e.action = RBAC_DENY <;> simp [defaultDecision, h]
  | e :: e' :: rest => simp [defaultDecision]

theorem defaultDecision_policyNames (engines : List (rbacEngine Prog)) :
    (defaultDecision engines).policyNames = [] := by
  unfold defaultDecision
  split <;> rfl

theorem find?_first {α : Type} (p : α → Bool) (pre : List α) (e : α) (post : List α)
    (hpre : ∀ x ∈ pre, p x = false) (he : p e = true) :
    (pre ++ e :: post).find? p = some e := by
  induction pre with
  | nil => simp [List.find?_cons, he]
  | cons x xs ih =>
    have hx : p x = false := hpre x (by simp)
    simp only [List.cons_append, List.find?_cons, hx]
    exact ih (fun y hy => hpre y (List.mem_cons_of_mem _ hy))

/-- `Evaluate` when every policy name is non-empty and `e` is the first engine
that has a condition evaluating to true: the decision is that of `e`, with the
name of a condition of `e` that evaluates to true. -/
theorem evaluate_of_first_true (matchCond : Prog → AuthorizationArgs → MatchResult)
    (range : RangeOrder Prog) (args : AuthorizationArgs) (ce : CelEvaluationEngine Prog)
    (pre : List (rbacEngine Prog)) (e : rbacEngine Prog) (post : List (rbacEngine Prog))
    (hr : RangeOk range ce.engines)
    (hne : ∀ e ∈ ce.engines, ∀ kc ∈ e.conditions.entries, kc.1 ≠ "")
    (hsplit : ce.engines = pre ++ e :: post)
    (hpre : ∀ e' ∈ pre, ∀ kc ∈ e'.conditions.entries, (matchCond kc.2 args).1 = false)
    (he : ∃ kc ∈ e.conditions.entries, (matchCond kc.2 args).1 = true) :
    ∃ kc ∈ e.conditions.entries, (matchCond kc.2 args).1 = true ∧
      Evaluate matchCond range ce args = ⟨actionDecision e, [kc.1]⟩ := by
  have hfind : ce.engines.find? (hasTrue matchCond args) = some e := by
    rw [hsplit]
    exact find?_first _ pre e post
      (fun e' he' => (hasTrue_eq_false_iff matchCond args e').2 (hpre e' he'))
      ((hasTrue_eq_true_iff matchCond args e).2 he)
  rcases loop_spec matchCond range args ce.engines [] hr hne with
    ⟨e', kc, hfind', hmem, ht, hloop⟩ | ⟨hfind', _⟩
  · rw [hfind] at hfind'
    have hee : e' = e := (Option.some.inj hfind').symm
    subst hee
    exact ⟨kc, hmem, ht, by simp [Evaluate, hloop]⟩
  · rw [hfind] at hfind'
    cases hfind'

theorem compile_loop_isSome (lib : Library Ast Expr) (rules : List Rule)
    (policies : GoMap (Option (Policy Expr))) :
    (compileYamltoRbac.loop lib rules policies).isSome ↔
      ∀ rule ∈ rules, (compileCel lib rule.Condition).isSome := by
  induction rules generalizing policies with
  | nil => simp [compileYamltoRbac.loop]
  | cons rule rest ih =>
    rw [compileYamltoRbac.loop]
    cases hc : compileCel lib rule.Condition with
    | none => simp [hc]
    | some checked => simp [hc, ih]

theorem compile_loop_keys (lib : Library Ast Expr) (rules : List Rule)
    (policies result : GoMap (Option (Policy Expr)))
    (h : compileYamltoRbac.loop lib rules policies = some result) (k : String) :
    k ∈ result.entries.map Prod.fst ↔
      k ∈ policies.entries.map Prod.fst ∨ k ∈ rules.map (fun r => r.Name) := by
  induction rules generalizing policies with
  | nil =>
    simp only [compileYamltoRbac.loop, Option.some.injEq] at h
    subst h
    simp
  | cons rule rest ih =>
    rw [compileYamltoRbac.loop] at h
    cases hc : compileCel lib rule.Condition with
    | none => simp [hc] at h
    | some checked =>
      simp only [hc] at h
      rw [ih _ h]
      simp only [GoMap.set, mem_keys_setEntry, List.map_cons, List.mem_cons]
      tauto

theorem compile_loop_append (lib : Library Ast Expr) (pre post : List Rule)
    (policies : GoMap (Option (Policy Expr))) :
    compileYamltoRbac.loop lib (pre ++ post) policies =
      (compileYamltoRbac.loop lib pre policies).bind (compileYamltoRbac.loop lib post) := by
  induction pre generalizing policies with
  | nil => simp [compileYamltoRbac.loop]
  | cons rule rest ih =>
    simp only [List.cons_append, compileYamltoRbac.loop]
    cases compileCel lib rule.Condition with
    | none => simp
    | some checked => simp [ih]

/-- An entry of `rbac.Policies` stays as it is through the rules that carry
another name. -/
theorem compile_loop_keeps (lib : Library Ast Expr) (rules : List Rule)
    (policies result : GoMap (Option (Policy Expr)))
    (h : compileYamltoRbac.loop lib rules policies = some result)
    (k : String) (v : Option (Policy Expr)) (hk : ∀ r ∈ rules, r.Name ≠ k)
    (hmem : (k, v) ∈ policies.entries) : (k, v) ∈ result.entries := by
  induction rules generalizing policies with
  | nil =>
    simp only [compileYamltoRbac.loop, Option.some.injEq] at h
    rw [← h]
    exact hmem
  | cons rule rest ih =>
    rw [compileYamltoRbac.loop] at h
    cases hc : compileCel lib rule.Condition with
    | none => simp [hc] at h
    | some checked =>
      simp only [hc] at h
      refine ih _ h (fun r hr => hk r (List.mem_cons_of_mem _ hr)) ?_
      exact mem_setEntry_of_ne _ _ _ k v (fun e => hk rule (by simp) e.symm) hmem

/-- The last rule of a name decides the policy stored under that name. -/
theorem compile_loop_last (lib : Library Ast Expr) (pre post : List Rule) (rule : Rule)
    (policies result : GoMap (Option (Policy Expr)))
    (h : compileYamltoRbac.loop lib (pre ++ rule :: post) policies = some result)
    (hpost : ∀ r ∈ post, r.Name ≠ rule.Name) :
    ∃ checked, compileCel lib rule.Condition = some checked ∧
      (rule.Name, some ⟨lib.astExpr checked⟩) ∈ result.entries := by
  rw [compile_loop_append] at h
  cases hp : compileYamltoRbac.loop lib pre policies with
  | none => simp [hp] at h
  | some mid =>
    simp only [hp, Option.some_bind] at h
    rw [compileYamltoRbac.loop] at h
    cases hc : compileCel lib rule.Condition with
    | none => simp [hc] at h
    | some checked =>
      simp only [hc] at h
      exact ⟨checked, rfl, compile_loop_keeps lib post _ result h rule.Name _ hpost
        (mem_setEntry_self _ _ _)⟩

/-- A pair of RBACs accepted by `NewCelEvaluationEngine` is a DENY followed by
an ALLOW, and the engine list holds the engine of each. -/
theorem newCelEvaluationEngine_pair (toProgram : Expr → Prog) (deny allow : RBAC Expr)
    (ce : CelEvaluationEngine Prog)
    (h : NewCelEvaluationEngine toProgram [deny, allow] = some (.ok ce)) :
    deny.Action = RBAC_DENY ∧ allow.Action = RBAC_ALLOW ∧
      ∃ de ae, ce.engines = [de, ae] ∧ newRbacEngine toProgram deny = some de ∧
        newRbacEngine toProgram allow = some ae := by
  have hall := newCelEvaluationEngine_ok toProgram [deny, allow] ce h
  have hact : deny.Action = RBAC_DENY ∧ allow.Action = RBAC_ALLOW := by
    by_cases h1 : deny.Action = RBAC_DENY
    · by_cases h2 : allow.Action = RBAC_ALLOW
      · exact ⟨h1, h2⟩
      · simp [NewCelEvaluationEngine, h1, h2] at h
    · simp [NewCelEvaluationEngine, h1] at h
  refine ⟨hact.1, hact.2, ?_⟩
  rw [List.forall₂_cons_left_iff] at hall
  obtain ⟨de, es, hd, hrest, heq⟩ := hall
  rw [List.forall₂_cons_left_iff] at hrest
  obtain ⟨ae, es', ha, hnil, heq'⟩ := hrest
  rw [List.forall₂_nil_left_iff] at hnil
  subst hnil
  subst heq'
  exact ⟨de, ae, heq, hd, ha⟩

/-- Deny-overrides, for policy names that are all non-empty: when a condition
of the DENY policy set evaluates to true, `Evaluate` returns deny with the
name of a DENY condition that evaluates to true. -/
theorem deny_overrides_of_nonempty_names (toProgram : Expr → Prog)
    (deny allow : RBAC Expr) (ce : CelEvaluationEngine Prog) (de : rbacEngine Prog)
    (matchCond : Prog → AuthorizationArgs → MatchResult)
    (range : RangeOrder Prog) (args : AuthorizationArgs)
    (hbuild : NewCelEvaluationEngine toProgram [deny, allow] = some (.ok ce))
    (hde : newRbacEngine toProgram deny = some de)
    (hne : ∀ e ∈ ce.engines, ∀ kc ∈ e.conditions.entries, kc.1 ≠ "")
    (hr : RangeOk range ce.engines)
    (htrue : ∃ kc ∈ de.conditions.entries, (matchCond kc.2 args).1 = true) :
    ∃ kc ∈ de.conditions.entries, (matchCond kc.2 args).1 = true ∧
      Evaluate matchCond range ce args = ⟨DecisionDeny, [kc.1]⟩ := by
  obtain ⟨hact, _, de', ae, heng, hde', _⟩ :=
    newCelEvaluationEngine_pair toProgram deny allow ce hbuild
  have hdd : de' = de := by
    rw [hde] at hde'
    exact (Option.some.inj hde').symm
  subst hdd
  have hT : hasTrue matchCond args de' = true :=
    (hasTrue_eq_true_iff matchCond args _).2 htrue
  have hfind : ce.engines.find? (hasTrue matchCond args) = some de' := by
    rw [heng]
    simp [List.find?_cons, hT]
  rcases loop_spec matchCond range args ce.engines [] hr hne with
    ⟨e, kc, hfind', hmem, ht, hloop⟩ | ⟨hfind', _⟩
  · rw [hfind] at hfind'
    have hee : e = de' := (Option.some.inj hfind').symm
    subst hee
    refine ⟨kc, hmem, ht, ?_⟩
    have ha : e.action = RBAC_DENY := by
      rw [newRbacEngine_action toProgram deny e hde, hact]
    have hd : actionDecision e = DecisionDeny := by
      simp [actionDecision, ha, RBAC_DENY, RBAC_ALLOW]
    simp [Evaluate, hloop, hd]
  · rw [hfind] at hfind'
    cases hfind'

/-- Allow after no deny, for policy names that are all non-empty: when no
condition of the DENY policy set evaluates to true and a condition of the
ALLOW policy set does, `Evaluate` returns allow with the name of an ALLOW
condition that evaluates to true. -/
theorem allow_of_nonempty_names (toProgram : Expr → Prog)
    (deny allow : RBAC Expr) (ce : CelEvaluationEngine Prog) (de ae : rbacEngine Prog)
    (matchCond : Prog → AuthorizationArgs → MatchResult)
    (range : RangeOrder Prog) (args : AuthorizationArgs)
    (hbuild : NewCelEvaluationEngine toProgram [deny, allow] = some (.ok ce))
    (hde : newRbacEngine toProgram deny = some de)
    (hae : newRbacEngine toProgram allow = some ae)
    (hne : ∀ e ∈ ce.engines, ∀ kc ∈ e.conditions.entries, kc.1 ≠ "")
    (hr : RangeOk range ce.engines)
    (hdeny : ∀ kc ∈ de.conditions.entries, (matchCond kc.2 args).1 = false)
    (htrue : ∃ kc ∈ ae.conditions.entries, (matchCond kc.2 args).1 = true) :
    ∃ kc ∈ ae.conditions.entries, (matchCond kc.2 args).1 = true ∧
      Evaluate matchCond range ce args = ⟨DecisionAllow, [kc.1]⟩ := by
  obtain ⟨_, hact, de', ae', heng, hde', hae'⟩ :=
    newCelEvaluationEngine_pair toProgram deny allow ce hbuild
  have hdd : de' = de := by
    rw [hde] at hde'
    exact (Option.some.inj hde').symm
  have haa : ae' = ae := by
    rw [hae] at hae'
    exact (Option.some.inj hae').symm
  subst hdd
  subst haa
  have hD : hasTrue matchCond args de' = false :=
    (hasTrue_eq_false_iff matchCond args _).2 hdeny
  have hT : hasTrue matchCond args ae' = true :=
    (hasTrue_eq_true_iff matchCond args _).2 htrue
  have hfind : ce.engines.find? (hasTrue matchCond args) = some ae' := by
    rw [heng]
    simp [List.find?_cons, hT, hD]
  rcases loop_spec matchCond range args ce.engines [] hr hne with
    ⟨e, kc, hfind', hmem, ht, hloop⟩ | ⟨hfind', _⟩
  · rw [hfind] at hfind'
    have hee : e = ae' := (Option.some.inj hfind').symm
    subst hee
    refine ⟨kc, hmem, ht, ?_⟩
    have ha : e.action = RBAC_ALLOW := by
      rw [newRbacEngine_action toProgram allow e hae, hact]
    have hd : actionDecision e = DecisionAllow := by
      simp [actionDecision, ha]
    simp [Evaluate, hloop, hd]
  · rw [hfind] at hfind'
    cases hfind'

/-- With the functions `exprToProgram` and `matchesCondition` of engine.go no
condition evaluates to true and none is indeterminate, so `Evaluate` returns
the default decision for every engine and every call. -/
theorem evaluate_with_stubs {P : Type} (ce : CelEvaluationEngine (Option P))
    (range : RangeOrder (Option P)) (args : AuthorizationArgs)
    (hr : RangeOk range ce.engines) :
    Evaluate matchesCondition range ce args = defaultDecision ce.engines := by
  have hnone : ∀ e ∈ ce.engines, hasTrue matchesCondition args e = false := by
    intro e _
    rw [hasTrue_eq_false_iff]
    intro kc _
    rfl
  have hunk : allUnknownNames matchesCondition args range ce.engines = [] := by
    rw [allUnknownNames_eq_nil_iff matchesCondition range args ce.engines hr]
    intro e _
    simp [hasUnknown, condUnknown, matchesCondition]
  rw [evaluate_of_none_true matchesCondition range args ce hr hnone, if_pos hunk]

/-- An action string that is neither "ALLOW" nor "DENY" is looked up as 0,
which is `RBAC_ALLOW`. -/
theorem goIndex_unrecognized (action : String) (h₁ : action ≠ "ALLOW")
    (h₂ : action ≠ "DENY") : goIndex RBAC_Action_value action = RBAC_ALLOW := by
  have e₁ : (action == "ALLOW") = false := by simpa using h₁
  have e₂ : (action == "DENY") = false := by simpa using h₂
  simp [goIndex, RBAC_Action_value, List.lookup, e₁, e₂, RBAC_ALLOW]

/-- Every policy set that `compileYamltoRbac` returns for a document whose
action string is neither "ALLOW" nor "DENY" has the action ALLOW. -/
theorem compile_action_of_unrecognized (lib : Library Ast Expr) (filename file : String)
    (userPolicy : UserPolicy) (rbac : RBAC Expr)
    (hread : lib.readFile filename = some file)
    (hparse : lib.yamlUnmarshal file = some userPolicy)
    (h₁ : userPolicy.Action ≠ "ALLOW") (h₂ : userPolicy.Action ≠ "DENY")
    (hrbac : compileYamltoRbac lib filename = some rbac) :
    rbac.Action = RBAC_ALLOW := by
  simp only [compileYamltoRbac, readYaml, parseYaml, hread, hparse] at hrbac
  cases hl : compileYamltoRbac.loop lib userPolicy.Rules GoMap.empty with
  | none => simp [hl] at hrbac
  | some policies =>
    simp only [hl, Option.some.injEq] at hrbac
    rw [← hrbac]
    exact goIndex_unrecognized userPolicy.Action h₁ h₂

/-! ## Properties of the engine and of the compiler -/

/-- C1, at the failing input. The DENY policy set has a condition that
evaluates to true, under the empty policy name; `Evaluate` takes the empty
name for no match, goes on to the ALLOW policy set and returns allow. -/
theorem deny_true_under_empty_name_allows :
    NewCelEvaluationEngine id [denyEmptyName, allowA] =
      some (.ok ⟨[denyEmptyNameEngine, allowAEngine]⟩) ∧
    (∃ kc ∈ denyEmptyNameEngine.conditions.entries, (textCond kc.2 noArgs).1 = true) ∧
    Evaluate textCond entriesOrder ⟨[denyEmptyNameEngine, allowAEngine]⟩ noArgs =
      ⟨DecisionAllow, ["a"]⟩ := by
  refine ⟨rfl, ⟨("", "true"), by decide, by decide⟩, by decide⟩

/-- C2, at the failing input. No DENY condition evaluates to true and the
ALLOW policy set has a condition that evaluates to true, under the empty
policy name; `Evaluate` returns the default deny with no policy name. -/
theorem allow_true_under_empty_name_denies :
    NewCelEvaluationEngine id [denyFalse, allowEmptyName] =
      some (.ok ⟨[denyFalseEngine, allowEmptyNameEngine]⟩) ∧
    (∀ kc ∈ denyFalseEngine.conditions.entries, (textCond kc.2 noArgs).1 = false) ∧
    (∃ kc ∈ allowEmptyNameEngine.conditions.entries, (textCond kc.2 noArgs).1 = true) ∧
    Evaluate textCond entriesOrder ⟨[denyFalseEngine, allowEmptyNameEngine]⟩ noArgs =
      ⟨DecisionDeny, []⟩ := by
  refine ⟨rfl, by decide, ⟨("", "true"), by decide, by decide⟩, by decide⟩

/-- C3. Default fallthrough: when every condition of every policy set of a
built engine evaluates to false (no match, no error), `Evaluate` returns no
policy name, and the decision is allow for a single DENY policy set, deny for
a single ALLOW policy set, and deny for the pair (DENY, ALLOW). -/
theorem evaluate_default_fallthrough (toProgram : Expr → Prog) (rbacs : List (RBAC Expr))
    (ce : CelEvaluationEngine Prog) (matchCond : Prog → AuthorizationArgs → MatchResult)
    (range : RangeOrder Prog) (args : AuthorizationArgs)
    (hbuild : NewCelEvaluationEngine toProgram rbacs = some (.ok ce))
    (hr : RangeOk range ce.engines)
    (hfalse : ∀ e ∈ ce.engines, ∀ kc ∈ e.conditions.entries,
      matchCond kc.2 args = (false, none)) :
    (Evaluate matchCond range ce args).policyNames = [] ∧
    (∀ r, rbacs = [r] → r.Action = RBAC_DENY →
      (Evaluate matchCond range ce args).decision = DecisionAllow) ∧
    (∀ r, rbacs = [r] → r.Action = RBAC_ALLOW →
      (Evaluate matchCond range ce args).decision = DecisionDeny) ∧
    (∀ d a, rbacs = [d, a] →
      (Evaluate matchCond range ce args).decision = DecisionDeny) := by
  have hnone : ∀ e ∈ ce.engines, hasTrue matchCond args e = false := by
    intro e he
    rw [hasTrue_eq_false_iff]
    intro kc hkc
    simp [condTrue, hfalse e he kc hkc]
  have hunk : allUnknownNames matchCond args range ce.engines = [] := by
    rw [allUnknownNames_eq_nil_iff matchCond range args ce.engines hr]
    intro e he
    simp only [hasUnknown, List.any_eq_false]
    intro kc hkc
    simp [condUnknown, hfalse e he kc hkc]
  have hev := evaluate_of_none_true matchCond range args ce hr hnone
  rw [if_pos hunk] at hev
  rw [hev]
  refine ⟨defaultDecision_policyNames _, ?_, ?_, ?_⟩
  · intro r hrb hact
    subst hrb
    obtain ⟨e, heng, he⟩ := newCelEvaluationEngine_single toProgram r ce hbuild
    have ha := newRbacEngine_action toProgram r e he
    rw [defaultDecision_decision, heng]
    simp [ha, hact]
  · intro r hrb hact
    subst hrb
    obtain ⟨e, heng, he⟩ := newCelEvaluationEngine_single toProgram r ce hbuild
    have ha := newRbacEngine_action toProgram r e he
    rw [defaultDecision_decision, heng]
    simp [ha, hact, RBAC_ALLOW, RBAC_DENY]
  · intro d a hrb
    subst hrb
    obtain ⟨_, _, de, ae, heng, _, _⟩ := newCelEvaluationEngine_pair toProgram d a ce hbuild
    rw [defaultDecision_decision, heng]

/-- C4. When no condition of any policy set of a built engine evaluates to
true and at least one condition is indeterminate, `Evaluate` returns
`DecisionUnknown`, and `policyNames` is, policy set after policy set in engine
order, the names of the indeterminate conditions of that set: each segment
holds exactly the names of the set's indeterminate conditions, none twice. -/
theorem evaluate_unknown (toProgram : Expr → Prog) (rbacs : List (RBAC Expr))
    (ce : CelEvaluationEngine Prog) (matchCond : Prog → AuthorizationArgs → MatchResult)
    (range : RangeOrder Prog) (args : AuthorizationArgs)
    (_hbuild : NewCelEvaluationEngine toProgram rbacs = some (.ok ce))
    (hr : RangeOk range ce.engines)
    (hnone : ∀ e ∈ ce.engines, ∀ kc ∈ e.conditions.entries,
      (matchCond kc.2 args).1 = false)
    (hsome : ∃ e ∈ ce.engines, ∃ kc ∈ e.conditions.entries,
      (matchCond kc.2 args).2 ≠ none) :
    Evaluate matchCond range ce args =
      ⟨DecisionUnknown,
        ce.engines.flatMap (fun e => unknownNames matchCond args (range e))⟩ ∧
    ∀ e ∈ ce.engines,
      (unknownNames matchCond args (range e)).Perm
        ((e.conditions.entries.filter
          (fun kc => decide ((matchCond kc.2 args).2 ≠ none))).map Prod.fst) ∧
      (unknownNames matchCond args (range e)).Nodup := by
  have hnone' : ∀ e ∈ ce.engines, hasTrue matchCond args e = false := by
    intro e he
    rw [hasTrue_eq_false_iff]
    intro kc hkc
    exact hnone e he kc hkc
  have hunk : allUnknownNames matchCond args range ce.engines ≠ [] := by
    intro hnil
    rw [allUnknownNames_eq_nil_iff matchCond range args ce.engines hr] at hnil
    obtain ⟨e, he, kc, hkc, hne⟩ := hsome
    have h1 := hnil e he
    simp only [hasUnknown, List.any_eq_false] at h1
    have h2 := h1 kc hkc
    simp only [condUnknown] at h2
    cases herr : (matchCond kc.2 args).2 with
    | none => exact hne herr
    | some err => simp [herr] at h2
  have hev := evaluate_of_none_true matchCond range args ce hr hnone'
  rw [if_neg hunk] at hev
  refine ⟨hev, ?_⟩
  intro e he
  have hfun : (fun kc : String × Prog => decide ((matchCond kc.2 args).2 ≠ none))
      = condUnknown matchCond args := by
    funext kc
    simp only [condUnknown]
    cases (matchCond kc.2 args).2 <;> simp
  rw [hfun]
  refine ⟨unknownNames_perm matchCond args (hr e he), ?_⟩
  exact unknownNames_nodup matchCond args
    (((hr e he).map Prod.fst).nodup_iff.2 e.conditions.nodup)

/-- C5, counterexample. A single ALLOW RBAC whose one policy is the nil
pointer is a list of length one, yet `NewCelEvaluationEngine` does not return
an engine for it: `newRbacEngine` panics on `policy.Condition`. -/
theorem newCelEvaluationEngine_panics_on_nil_policy :
    [allowNilPolicy].length = 1 ∧
    (NewCelEvaluationEngine id [allowNilPolicy] :
      Option (Except Status (CelEvaluationEngine String))) = none ∧
    ¬ ∃ ce : CelEvaluationEngine String,
      NewCelEvaluationEngine id [allowNilPolicy] = some (.ok ce) := by
  refine ⟨rfl, rfl, ?_⟩
  rintro ⟨ce, h⟩
  have hnone : (NewCelEvaluationEngine id [allowNilPolicy] :
      Option (Except Status (CelEvaluationEngine String))) = none := rfl
  rw [hnone] at h
  cases h

/-- C5, as amended. `NewCelEvaluationEngine` returns an InvalidArgument error
exactly when the list has neither one nor two RBACs, or has two of which the
first is not a DENY or the second not an ALLOW; it returns an engine exactly
when the list is not of that kind and no policy in it is a nil pointer; it
panics exactly when the list is not of that kind and some policy in it is a
nil pointer. -/
theorem newCelEvaluationEngine_outcome (toProgram : Expr → Prog)
    (rbacs : List (RBAC Expr)) :
    ((∃ msg, NewCelEvaluationEngine toProgram rbacs =
        some (.error ⟨InvalidArgument, msg⟩)) ↔
      ((rbacs.length ≠ 1 ∧ rbacs.length ≠ 2) ∨
        ∃ d a, rbacs = [d, a] ∧ (d.Action ≠ RBAC_DENY ∨ a.Action ≠ RBAC_ALLOW))) ∧
    ((∃ ce, NewCelEvaluationEngine toProgram rbacs = some (.ok ce)) ↔
      (¬ ((rbacs.length ≠ 1 ∧ rbacs.length ≠ 2) ∨
          ∃ d a, rbacs = [d, a] ∧ (d.Action ≠ RBAC_DENY ∨ a.Action ≠ RBAC_ALLOW)) ∧
        ∀ r ∈ rbacs, ∀ kp ∈ r.Policies.entries, kp.2 ≠ none)) ∧
    (NewCelEvaluationEngine toProgram rbacs = none ↔
      (¬ ((rbacs.length ≠ 1 ∧ rbacs.length ≠ 2) ∨
          ∃ d a, rbacs = [d, a] ∧ (d.Action ≠ RBAC_DENY ∨ a.Action ≠ RBAC_ALLOW)) ∧
        ∃ r ∈ rbacs, ∃ kp ∈ r.Policies.entries, kp.2 = none)) := by
  have hN := newCelEvaluationEngine_loop_eq_none_iff toProgram rbacs ([] : List (rbacEngine Prog))
  have hall : (∀ r ∈ rbacs, ∀ kp ∈ r.Policies.entries, kp.2 ≠ none) ↔
      ¬ ∃ r ∈ rbacs, ∃ kp ∈ r.Policies.entries, kp.2 = none := by
    constructor
    · rintro h ⟨r, hr, kp, hkp, hnil⟩
      exact h r hr kp hkp hnil
    · intro h r hr kp hkp hnil
      exact h ⟨r, hr, kp, hkp, hnil⟩
  -- the two outcomes of the checks that come before the loop
  have hcases :
      (((rbacs.length ≠ 1 ∧ rbacs.length ≠ 2) ∨
          ∃ d a, rbacs = [d, a] ∧ (d.Action ≠ RBAC_DENY ∨ a.Action ≠ RBAC_ALLOW)) ∧
        ∃ msg, NewCelEvaluationEngine toProgram rbacs =
          some (.error ⟨InvalidArgument, msg⟩)) ∨
      (¬ ((rbacs.length ≠ 1 ∧ rbacs.length ≠ 2) ∨
          ∃ d a, rbacs = [d, a] ∧ (d.Action ≠ RBAC_DENY ∨ a.Action ≠ RBAC_ALLOW)) ∧
        NewCelEvaluationEngine toProgram rbacs =
          (NewCelEvaluationEngine.loop toProgram rbacs []).map
            (fun engines => Except.ok ⟨engines⟩)) := by
    have hmap : ∀ o : Option (List (rbacEngine Prog)),
        (match o with
          | none => none
          | some engines => some (Except.ok (ε := Status) (⟨engines⟩ : CelEvaluationEngine Prog)))
          = o.map (fun engines => Except.ok ⟨engines⟩) := by
      intro o
      cases o <;> rfl
    match rbacs with
    | [] => left; simp [NewCelEvaluationEngine]
    | [r] => right; simp [NewCelEvaluationEngine, hmap]
    | [d, a] =>
      have hex : (∃ d' a', [d, a] = [d', a'] ∧
          (d'.Action ≠ RBAC_DENY ∨ a'.Action ≠ RBAC_ALLOW)) ↔
          (d.Action ≠ RBAC_DENY ∨ a.Action ≠ RBAC_ALLOW) := by
        constructor
        · rintro ⟨d', a', heq, h⟩
          simp only [List.cons.injEq, and_true] at heq
          rw [heq.1, heq.2]
          exact h
        · intro h
          exact ⟨d, a, rfl, h⟩
      rw [hex]
      by_cases h1 : d.Action = RBAC_DENY <;> by_cases h2 : a.Action = RBAC_ALLOW <;>
        simp [NewCelEvaluationEngine, h1, h2, hmap]
    | r1 :: r2 :: r3 :: rest => left; simp [NewCelEvaluationEngine]
  rcases hcases with ⟨hc, msg, hmsg⟩ | ⟨hc, hnew⟩
  · refine ⟨⟨fun _ => hc, fun _ => ⟨msg, hmsg⟩⟩, ⟨?_, fun h => absurd hc h.1⟩,
      ⟨?_, fun h => absurd hc h.1⟩⟩
    · rintro ⟨ce, h⟩
      rw [hmsg] at h
      cases h
    · intro h
      rw [hmsg] at h
      cases h
  · cases hl : NewCelEvaluationEngine.loop toProgram rbacs ([] : List (rbacEngine Prog)) with
    | none =>
      have hnil := hN.1 hl
      rw [hl] at hnew
      simp only [Option.map_none'] at hnew
      refine ⟨⟨?_, fun h => absurd h hc⟩, ⟨?_, fun h => absurd hnil (hall.1 h.2)⟩,
        ⟨fun _ => ⟨hc, hnil⟩, fun _ => hnew⟩⟩
      · rintro ⟨msg, h⟩
        rw [hnew] at h
        cases h
      · rintro ⟨ce, h⟩
        rw [hnew] at h
        cases h
    | some engines =>
      have hnot : ¬ ∃ r ∈ rbacs, ∃ kp ∈ r.Policies.entries, kp.2 = none := by
        intro hex
        rw [hN.2 hex] at hl
        cases hl
      rw [hl] at hnew
      simp only [Option.map_some'] at hnew
      refine ⟨⟨?_, fun h => absurd h hc⟩, ⟨fun _ => ⟨hc, hall.2 hnot⟩, fun _ => ⟨_, hnew⟩⟩,
        ⟨?_, fun h => absurd h.2 hnot⟩⟩
      · rintro ⟨msg, h⟩
        rw [hnew] at h
        cases h
      · intro h
        rw [hnew] at h
        cases h

/-- C6, at the failing input. The action "DENNY" is not an action name;
`compileYamltoRbac` does not fail: it returns a policy set, and the action of
that policy set is ALLOW. -/
theorem compile_unrecognized_action_is_allow :
    "DENNY" ∉ RBAC_Action_value.map Prod.fst ∧
    (compileYamltoRbac (libraryFor docDenny) "user_policy.yaml").isSome = true ∧
    (compileYamltoRbac (libraryFor docDenny) "user_policy.yaml").map (fun r => r.Action) =
      some RBAC_ALLOW := by
  refine ⟨by decide, by decide, by decide⟩

/-- C8, counterexample. One ALLOW policy set with two conditions that both
evaluate to true: visiting the conditions map in one order reports "a",
visiting it in the other order reports "b". -/
theorem evaluate_depends_on_visiting_order :
    NewCelEvaluationEngine id [allowTwoTrue] = some (.ok ⟨[allowTwoTrueEngine]⟩) ∧
    RangeOk entriesOrder [allowTwoTrueEngine] ∧
    RangeOk reverseOrder [allowTwoTrueEngine] ∧
    Evaluate textCond entriesOrder ⟨[allowTwoTrueEngine]⟩ noArgs =
      ⟨DecisionAllow, ["a"]⟩ ∧
    Evaluate textCond reverseOrder ⟨[allowTwoTrueEngine]⟩ noArgs =
      ⟨DecisionAllow, ["b"]⟩ ∧
    Evaluate textCond entriesOrder ⟨[allowTwoTrueEngine]⟩ noArgs ≠
      Evaluate textCond reverseOrder ⟨[allowTwoTrueEngine]⟩ noArgs := by
  refine ⟨rfl, fun e _ => List.Perm.refl _, fun e _ => List.reverse_perm _,
    by decide, by decide, by decide⟩

/-- C8, as amended. Two runs of `Evaluate` on a built engine whose policy
names are all non-empty, under any two visiting orders, return the same
decision kind.  When some condition evaluates to true, both runs return the
decision of the first policy set `e` that has such a condition, each with one
name of a condition of `e` that evaluates to true, and the two results are
equal when all true conditions of `e` carry one name.  When no condition
evaluates to true and some condition is indeterminate, both runs return
unknown with the indeterminate names in their visiting order, the same names
up to order.  When every condition evaluates to false, both runs return the
default decision. -/
theorem evaluate_two_runs (toProgram : Expr → Prog) (rbacs : List (RBAC Expr))
    (ce : CelEvaluationEngine Prog) (matchCond : Prog → AuthorizationArgs → MatchResult)
    (range₁ range₂ : RangeOrder Prog) (args : AuthorizationArgs)
    (_hbuild : NewCelEvaluationEngine toProgram rbacs = some (.ok ce))
    (hne : ∀ e ∈ ce.engines, ∀ kc ∈ e.conditions.entries, kc.1 ≠ "")
    (h₁ : RangeOk range₁ ce.engines) (h₂ : RangeOk range₂ ce.engines) :
    (Evaluate matchCond range₁ ce args).decision =
      (Evaluate matchCond range₂ ce args).decision ∧
    (∀ pre e post, ce.engines = pre ++ e :: post →
      (∀ e' ∈ pre, ∀ kc ∈ e'.conditions.entries, (matchCond kc.2 args).1 = false) →
      (∃ kc ∈ e.conditions.entries, (matchCond kc.2 args).1 = true) →
      ∃ kc₁ ∈ e.conditions.entries, ∃ kc₂ ∈ e.conditions.entries,
        (matchCond kc₁.2 args).1 = true ∧ (matchCond kc₂.2 args).1 = true ∧
        Evaluate matchCond range₁ ce args = ⟨actionDecision e, [kc₁.1]⟩ ∧
        Evaluate matchCond range₂ ce args = ⟨actionDecision e, [kc₂.1]⟩ ∧
        ((∀ kc ∈ e.conditions.entries, ∀ kc' ∈ e.conditions.entries,
            (matchCond kc.2 args).1 = true → (matchCond kc'.2 args).1 = true →
              kc.1 = kc'.1) →
          Evaluate matchCond range₁ ce args = Evaluate matchCond range₂ ce args)) ∧
    ((∀ e ∈ ce.engines, ∀ kc ∈ e.conditions.entries, (matchCond kc.2 args).1 = false) →
      ((∃ e ∈ ce.engines, ∃ kc ∈ e.conditions.entries, (matchCond kc.2 args).2 ≠ none) →
        Evaluate matchCond range₁ ce args =
          ⟨DecisionUnknown, allUnknownNames matchCond args range₁ ce.engines⟩ ∧
        Evaluate matchCond range₂ ce args =
          ⟨DecisionUnknown, allUnknownNames matchCond args range₂ ce.engines⟩ ∧
        (allUnknownNames matchCond args range₁ ce.engines).Perm
          (allUnknownNames matchCond args range₂ ce.engines)) ∧
      ((∀ e ∈ ce.engines, ∀ kc ∈ e.conditions.entries, (matchCond kc.2 args).2 = none) →
        Evaluate matchCond range₁ ce args = defaultDecision ce.engines ∧
        Evaluate matchCond range₂ ce args = defaultDecision ce.engines)) := by
  have hperm := allUnknownNames_perm matchCond range₁ range₂ args ce.engines h₁ h₂
  refine ⟨?_, ?_, ?_⟩
  · rcases loop_spec matchCond range₁ args ce.engines [] h₁ hne with
      ⟨e, kc₁, hfind, _, _, hloop₁⟩ | ⟨hfind, _⟩
    · rcases loop_spec matchCond range₂ args ce.engines [] h₂ hne with
        ⟨e', kc₂, hfind', _, _, hloop₂⟩ | ⟨hfind', _⟩
      · have hee : e' = e := by
          rw [hfind] at hfind'
          exact (Option.some.inj hfind').symm
        subst hee
        simp [Evaluate, hloop₁, hloop₂]
      · rw [hfind] at hfind'
        cases hfind'
    · have hnone : ∀ e ∈ ce.engines, hasTrue matchCond args e = false := by
        intro e he
        have := List.find?_eq_none.1 hfind e he
        simpa using this
      rw [evaluate_of_none_true matchCond range₁ args ce h₁ hnone,
        evaluate_of_none_true matchCond range₂ args ce h₂ hnone]
      by_cases hu : allUnknownNames matchCond args range₁ ce.engines = []
      · have hu₂ : allUnknownNames matchCond args range₂ ce.engines = [] := by
          rw [hu] at hperm
          exact List.perm_nil.1 hperm.symm
        rw [if_pos hu, if_pos hu₂]
      · have hu₂ : allUnknownNames matchCond args range₂ ce.engines ≠ [] := by
          intro hnil
          rw [hnil] at hperm
          exact hu (List.perm_nil.1 hperm)
        rw [if_neg hu, if_neg hu₂]
  · intro pre e post hsplit hpre he
    obtain ⟨kc₁, hmem₁, ht₁, hev₁⟩ :=
      evaluate_of_first_true matchCond range₁ args ce pre e post h₁ hne hsplit hpre he
    obtain ⟨kc₂, hmem₂, ht₂, hev₂⟩ :=
      evaluate_of_first_true matchCond range₂ args ce pre e post h₂ hne hsplit hpre he
    refine ⟨kc₁, hmem₁, kc₂, hmem₂, ht₁, ht₂, hev₁, hev₂, ?_⟩
    intro huniq
    rw [hev₁, hev₂, huniq kc₁ hmem₁ kc₂ hmem₂ ht₁ ht₂]
  · intro hfalse
    have hnone : ∀ e ∈ ce.engines, hasTrue matchCond args e = false :=
      fun e he => (hasTrue_eq_false_iff matchCond args e).2 (hfalse e he)
    have hev₁ := evaluate_of_none_true matchCond range₁ args ce h₁ hnone
    have hev₂ := evaluate_of_none_true matchCond range₂ args ce h₂ hnone
    constructor
    · rintro ⟨e, he, kc, hkc, herr⟩
      have hu : allUnknownNames matchCond args range₁ ce.engines ≠ [] := by
        intro hnil
        rw [allUnknownNames_eq_nil_iff matchCond range₁ args ce.engines h₁] at hnil
        have h1 := hnil e he
        simp only [hasUnknown, List.any_eq_false] at h1
        have h2 := h1 kc hkc
        simp only [condUnknown] at h2
        cases hv : (matchCond kc.2 args).2 with
        | none => exact herr hv
        | some err => simp [hv] at h2
      have hu₂ : allUnknownNames matchCond args range₂ ce.engines ≠ [] := by
        intro hnil
        rw [hnil] at hperm
        exact hu (List.perm_nil.1 hperm)
      rw [if_neg hu] at hev₁
      rw [if_neg hu₂] at hev₂
      exact ⟨hev₁, hev₂, hperm⟩
    · intro hnoerr
      have hu : ∀ range : RangeOrder Prog, RangeOk range ce.engines →
          allUnknownNames matchCond args range ce.engines = [] := by
        intro range hr
        rw [allUnknownNames_eq_nil_iff matchCond range args ce.engines hr]
        intro e he
        simp only [hasUnknown, List.any_eq_false]
        intro kc hkc
        simp [condUnknown, hnoerr e he kc hkc]
      rw [if_pos (hu range₁ h₁)] at hev₁
      rw [if_pos (hu range₂ h₂)] at hev₂
      exact ⟨hev₁, hev₂⟩

/-- C9, counterexample. A document with two rules named "r" compiles without
failure, and the policy set has one policy for the two rules. -/
theorem compile_duplicate_names_accepted :
    docDup.Rules.length = 2 ∧
    (compileYamltoRbac (libraryFor docDup) "user_policy.yaml").map
      (fun r => r.Policies.entries.length) = some 1 ∧
    (compileYamltoRbac (libraryFor docDup) "user_policy.yaml").map
      (fun r => r.Policies.entries) = some [("r", some ⟨"source.port == 2"⟩)] := by
  refine ⟨by decide, by decide, rfl⟩

/-- C9, as amended. Duplicate rule names do not make compilation fail: for a
readable, decodable document `compileYamltoRbac` returns a policy set exactly
when every condition compiles; the policy set it returns has as many policies
as the document has distinct rule names; and a later rule replaces an earlier
rule of the same name: under the name of every rule that no later rule shares
its name with, the policy set holds the compiled condition of that rule. -/
theorem compile_policy_set (lib : Library Ast Expr) (filename file : String)
    (userPolicy : UserPolicy)
    (hread : lib.readFile filename = some file)
    (hparse : lib.yamlUnmarshal file = some userPolicy) :
    ((compileYamltoRbac lib filename).isSome ↔
      ∀ rule ∈ userPolicy.Rules, (compileCel lib rule.Condition).isSome) ∧
    ∀ rbac, compileYamltoRbac lib filename = some rbac →
      rbac.Policies.entries.length =
        ((userPolicy.Rules.map (fun r => r.Name)).dedup).length ∧
      ∀ pre rule post, userPolicy.Rules = pre ++ rule :: post →
        (∀ r ∈ post, r.Name ≠ rule.Name) →
        ∃ checked, compileCel lib rule.Condition = some checked ∧
          (rule.Name, some ⟨lib.astExpr checked⟩) ∈ rbac.Policies.entries := by
  have hunf : compileYamltoRbac lib filename =
      (compileYamltoRbac.loop lib userPolicy.Rules GoMap.empty).map
        (fun policies => ⟨goIndex RBAC_Action_value userPolicy.Action, policies⟩) := by
    simp only [compileYamltoRbac, readYaml, parseYaml, hread, hparse]
    cases compileYamltoRbac.loop lib userPolicy.Rules GoMap.empty <;> rfl
  constructor
  · rw [hunf, ← compile_loop_isSome lib userPolicy.Rules GoMap.empty]
    cases compileYamltoRbac.loop lib userPolicy.Rules GoMap.empty <;> simp
  · intro rbac hrbac
    rw [hunf] at hrbac
    cases hl : compileYamltoRbac.loop lib userPolicy.Rules GoMap.empty with
    | none => simp [hl] at hrbac
    | some policies =>
      simp only [hl, Option.map_some', Option.some.injEq] at hrbac
      subst hrbac
      constructor
      · have hkeys := compile_loop_keys lib userPolicy.Rules GoMap.empty policies hl
        have hset : (policies.entries.map Prod.fst).toFinset =
            (userPolicy.Rules.map (fun r => r.Name)).toFinset := by
          ext k
          simp only [List.mem_toFinset]
          rw [hkeys k]
          simp [GoMap.empty]
        have h1 := List.toFinset_card_of_nodup policies.nodup
        rw [hset, List.card_toFinset] at h1
        simpa using h1.symm
      · intro pre rule post hsplit hpost
        rw [hsplit] at hl
        exact compile_loop_last lib pre post rule GoMap.empty policies hl hpost

/-- C10. For a built engine whose policy names are all non-empty, the decision
kind returned by `Evaluate` is the order-free reference decision, whatever the
order in which the conditions maps are visited. -/
theorem evaluate_decision_eq_reference (toProgram : Expr → Prog) (rbacs : List (RBAC Expr))
    (ce : CelEvaluationEngine Prog) (matchCond : Prog → AuthorizationArgs → MatchResult)
    (range : RangeOrder Prog) (args : AuthorizationArgs)
    (_hbuild : NewCelEvaluationEngine toProgram rbacs = some (.ok ce))
    (hne : ∀ e ∈ ce.engines, ∀ kc ∈ e.conditions.entries, kc.1 ≠ "")
    (hr : RangeOk range ce.engines) :
    (Evaluate matchCond range ce args).decision =
      referenceDecision matchCond args ce.engines := by
  rcases loop_spec matchCond range args ce.engines [] hr hne with
    ⟨e, kc, hfind, _, _, hloop⟩ | ⟨hfind, hloop⟩
  · simp [Evaluate, hloop, referenceDecision, hfind, actionDecision]
  · have hnone : ∀ e ∈ ce.engines, hasTrue matchCond args e = false := by
      intro e he
      have := List.find?_eq_none.1 hfind e he
      simpa using this
    rw [evaluate_of_none_true matchCond range args ce hr hnone]
    unfold referenceDecision
    rw [hfind]
    by_cases hu : allUnknownNames matchCond args range ce.engines = []
    · have hall := (allUnknownNames_eq_nil_iff matchCond range args ce.engines hr).1 hu
      have hany : ce.engines.any (hasUnknown matchCond args) = false := by
        simpa [List.any_eq_false] using hall
      simp only [hu, if_true, hany, Bool.false_eq_true, if_false]
      exact defaultDecision_decision ce.engines
    · have hany : ce.engines.any (hasUnknown matchCond args) = true := by
        by_contra hc
        have hc' : ce.engines.any (hasUnknown matchCond args) = false := by simpa using hc
        apply hu
        rw [allUnknownNames_eq_nil_iff matchCond range args ce.engines hr]
        simpa [List.any_eq_false] using hc'
      simp [hu, hany]

/-- C7, at the failing input. The document with the one rule "r1",
"source.port == 1" compiles to the ALLOW policy set `rbacR1`; the engine built
from it with the functions `exprToProgram` and `matchesCondition` of engine.go
reports no match for any call, the call from port 1 included: `Evaluate`
returns the default deny with no policy name. -/
theorem compiled_rule_never_matched :
    compileYamltoRbac (libraryFor docR1) "user_policy.yaml" = some rbacR1 ∧
    NewCelEvaluationEngine (exprToProgram : String → Option Unit) [rbacR1] =
      some (.ok ⟨[engineR1]⟩) ∧
    (∀ args : AuthorizationArgs,
      Evaluate matchesCondition entriesOrder ⟨[engineR1]⟩ args = ⟨DecisionDeny, []⟩) ∧
    Evaluate matchesCondition entriesOrder ⟨[engineR1]⟩ argsPort1 = ⟨DecisionDeny, []⟩ := by
  refine ⟨rfl, rfl, fun _ => rfl, rfl⟩

/-- Witness of C3: a single DENY policy set whose one condition evaluates to
false gives allow with no policy name. -/
theorem evaluate_default_fallthrough_witness :
    NewCelEvaluationEngine id [denyFalse] = some (.ok ⟨[denyFalseEngine]⟩) ∧
    (Evaluate textCond entriesOrder ⟨[denyFalseEngine]⟩ noArgs).policyNames = [] ∧
    (Evaluate textCond entriesOrder ⟨[denyFalseEngine]⟩ noArgs).decision =
      DecisionAllow :=
  have h := evaluate_default_fallthrough id [denyFalse] ⟨[denyFalseEngine]⟩
    textCond entriesOrder noArgs rfl (fun _ _ => List.Perm.refl _) (by decide)
  ⟨rfl, h.1, h.2.1 denyFalse rfl rfl⟩

/-- Witness of C4: a DENY set with the indeterminate condition "d1" and an
ALLOW set with the indeterminate condition "a1" give unknown with both
names. -/
theorem evaluate_unknown_witness :
    Evaluate textCond entriesOrder ⟨[denyUnknownEngine, allowUnknownEngine]⟩ noArgs =
      ⟨DecisionUnknown, ["d1", "a1"]⟩ :=
  (evaluate_unknown id [denyUnknown, allowUnknown]
    ⟨[denyUnknownEngine, allowUnknownEngine]⟩
    textCond entriesOrder noArgs rfl (fun _ _ => List.Perm.refl _) (by decide)
    ⟨denyUnknownEngine, by simp, ("d1", "unknown"), by decide, by decide⟩).1

/-- Witness of C8 as amended: the two visiting orders of the policy set with
two true conditions give the same decision kind. -/
theorem evaluate_two_runs_witness :
    (Evaluate textCond entriesOrder ⟨[allowTwoTrueEngine]⟩ noArgs).decision =
      (Evaluate textCond reverseOrder ⟨[allowTwoTrueEngine]⟩ noArgs).decision :=
  (evaluate_two_runs id [allowTwoTrue] ⟨[allowTwoTrueEngine]⟩ textCond
    entriesOrder reverseOrder noArgs rfl (by decide)
    (fun _ _ => List.Perm.refl _) (fun _ _ => List.reverse_perm _)).1

/-- Witness of C9 as amended: the document with two rules named "r" compiles
to a policy set with one policy, which holds the condition of the later
rule. -/
theorem compile_policy_set_witness :
    ∃ rbac, compileYamltoRbac (libraryFor docDup) "user_policy.yaml" = some rbac ∧
      rbac.Policies.entries.length = 1 ∧
      ("r", some ⟨"source.port == 2"⟩) ∈ rbac.Policies.entries := by
  have h := (compile_policy_set (libraryFor docDup) "user_policy.yaml" "" docDup
    rfl rfl).2 _ rfl
  obtain ⟨checked, hc, hmem⟩ :=
    h.2 [⟨"r", "source.port == 1"⟩] ⟨"r", "source.port == 2"⟩ [] rfl (by simp)
  have hchecked : checked = "source.port == 2" := (Option.some.inj hc).symm
  subst hchecked
  exact ⟨_, rfl, h.1.trans (by decide), hmem⟩

/-- Witness of C10: the pair of a DENY set whose condition "d" is false and an
ALLOW set whose condition "a" is true gives the reference decision, allow. -/
theorem evaluate_decision_eq_reference_witness :
    (Evaluate textCond entriesOrder ⟨[denyFalseEngine, allowAEngine]⟩ noArgs).decision =
      DecisionAllow :=
  (evaluate_decision_eq_reference id [denyFalse, allowA]
    ⟨[denyFalseEngine, allowAEngine]⟩ textCond entriesOrder noArgs
    rfl (by decide) (fun _ _ => List.Perm.refl _)).trans (by decide)

end Lemmas

end Rbac
